import Mathlib

/-!
Verification of the pliars proof-of-work blockchain core.

This file shallowly embeds the core data model and algorithms of the
repository (src/src/blockchain/block.rs, chain.rs, pow.rs) and settles the
claims of the specification against them.

Modelling conventions:
  - machine integers (u64, usize, u8) are Nat values; wrapping subtraction is
    made explicit through wsub64, and additions that can overflow carry an
    explicit mod 2^64;
  - byte strings are List Nat (each element a byte value);
  - fallible or panicking code returns Option: none models a Rust panic
    (unwrap failure, out-of-bounds index);
  - the SHA-256 function of the openssl crate is implemented concretely
    (FIPS 180-4) so that counterexamples evaluate the real program behaviour;
  - file-backed storage is modelled at two levels: raw byte contents for the
    line-truncation operation, and a list of parsed blocks for the block
    fetch operations (the file of a chain holds exactly its serialized
    blocks, one JSON line per block).
-/

/-! ## 32-bit word helpers and SHA-256 (FIPS 180-4) -/

/-- Rotation of a 32-bit word to the right by n positions. -/
def rotr32 (x n : Nat) : Nat :=
  ((x >>> n) ||| (x <<< (32 - n))) % 4294967296

/-- Addition of 32-bit words, wrapping. -/
def add32 (a b : Nat) : Nat := (a + b) % 4294967296

/-- Round constants of SHA-256. -/
def shaK : List Nat :=
  [1116352408, 1899447441, 3049323471, 3921009573,
   961987163, 1508970993, 2453635748, 2870763221,
   3624381080, 310598401, 607225278, 1426881987,
   1925078388, 2162078206, 2614888103, 3248222580,
   3835390401, 4022224774, 264347078, 604807628,
   770255983, 1249150122, 1555081692, 1996064986,
   2554220882, 2821834349, 2952996808, 3210313671,
   3336571891, 3584528711, 113926993, 338241895,
   666307205, 773529912, 1294757372, 1396182291,
   1695183700, 1986661051, 2177026350, 2456956037,
   2730485921, 2820302411, 3259730800, 3345764771,
   3516065817, 3600352804, 4094571909, 275423344,
   430227734, 506948616, 659060556, 883997877,
   958139571, 1322822218, 1537002063, 1747873779,
   1955562222, 2024104815, 2227730452, 2361852424,
   2428436474, 2756734187, 3204031479, 3329325298]

/-- Small sigma 0 of the SHA-256 message schedule. -/
def smallSigma0 (x : Nat) : Nat := (rotr32 x 7) ^^^ (rotr32 x 18) ^^^ (x >>> 3)

/-- Small sigma 1 of the SHA-256 message schedule. -/
def smallSigma1 (x : Nat) : Nat := (rotr32 x 17) ^^^ (rotr32 x 19) ^^^ (x >>> 10)

/-- Big sigma 0 of the SHA-256 compression function. -/
def bigSigma0 (x : Nat) : Nat := (rotr32 x 2) ^^^ (rotr32 x 13) ^^^ (rotr32 x 22)

/-- Big sigma 1 of the SHA-256 compression function. -/
def bigSigma1 (x : Nat) : Nat := (rotr32 x 6) ^^^ (rotr32 x 11) ^^^ (rotr32 x 25)

/-- Group a padded byte stream into 32-bit big-endian words. -/
def bytesToWords : List Nat → List Nat
  | a :: b :: c :: d :: rest => (a * 16777216 + b * 65536 + c * 256 + d) :: bytesToWords rest
  | _ => []

/-- Run n message-schedule expansion steps; the schedule is kept reversed, so
the head of the accumulator is the most recently produced word. -/
def extendSchedule : Nat → List Nat → List Nat
  | 0, rws => rws
  | n + 1, rws =>
      let w := add32 (add32 (rws.getD 15 0) (smallSigma0 (rws.getD 14 0)))
               (add32 (rws.getD 6 0) (smallSigma1 (rws.getD 1 0)))
      extendSchedule n (w :: rws)

/-- Working state of the SHA-256 compression function. -/
structure ShaState where
  a : Nat
  b : Nat
  c : Nat
  d : Nat
  e : Nat
  f : Nat
  g : Nat
  h : Nat
deriving DecidableEq

/-- One round of the SHA-256 compression function. -/
def shaRound (st : ShaState) (k w : Nat) : ShaState :=
  let t1 := add32 (add32 (add32 st.h (bigSigma1 st.e))
            (add32 ((st.e &&& st.f) ^^^ ((4294967295 - st.e) &&& st.g)) k)) w
  let t2 := add32 (bigSigma0 st.a) ((st.a &&& st.b) ^^^ (st.a &&& st.c) ^^^ (st.b &&& st.c))
  ⟨add32 t1 t2, st.a, st.b, st.c, add32 st.d t1, st.e, st.f, st.g⟩

/-- Run the 64 rounds, consuming round constants and schedule words in step. -/
def shaRounds : List Nat → List Nat → ShaState → ShaState
  | k :: ks, w :: ws, st => shaRounds ks ws (shaRound st k w)
  | _, _, st => st

/-- Compress one 16-word block into the running state. -/
def shaCompress (h0 : ShaState) (blockWords : List Nat) : ShaState :=
  let ws := (extendSchedule 48 (blockWords.take 16).reverse).reverse
  let st := shaRounds shaK ws h0
  ⟨add32 h0.a st.a, add32 h0.b st.b, add32 h0.c st.c, add32 h0.d st.d,
   add32 h0.e st.e, add32 h0.f st.f, add32 h0.g st.g, add32 h0.h st.h⟩

/-- Process the padded word stream 16 words per block; the fuel argument is
always instantiated with the word count, which bounds the block count. -/
def shaBlocks : Nat → ShaState → List Nat → ShaState
  | _, st, [] => st
  | 0, st, _ => st
  | fuel + 1, st, ws => shaBlocks fuel (shaCompress st (ws.take 16)) (ws.drop 16)

/-- SHA-256 padding: append 0x80, zero fill, and the 64-bit big-endian
message bit length, reaching a multiple of 64 bytes. -/
def padMessage (msg : List Nat) : List Nat :=
  let len := msg.length
  let bitLen := len * 8
  let padZeros := (64 - ((len + 9) % 64)) % 64
  msg ++ [128] ++ List.replicate padZeros 0 ++
    [(bitLen >>> 56) % 256, (bitLen >>> 48) % 256, (bitLen >>> 40) % 256, (bitLen >>> 32) % 256,
     (bitLen >>> 24) % 256, (bitLen >>> 16) % 256, (bitLen >>> 8) % 256, bitLen % 256]

/-- Serialize a 32-bit word to 4 big-endian bytes. -/
def word32ToBytes (w : Nat) : List Nat :=
  [(w >>> 24) % 256, (w >>> 16) % 256, (w >>> 8) % 256, w % 256]

/-- SHA-256 of a byte list, as its 32 digest bytes. -/
def sha256 (msg : List Nat) : List Nat :=
  let init : ShaState :=
    ⟨1779033703, 3144134277, 1013904242, 2773480762, 1359893119, 2600822924, 528734635, 1541459225⟩
  let ws := bytesToWords (padMessage msg)
  let final := shaBlocks ws.length init ws
  word32ToBytes final.a ++ word32ToBytes final.b ++ word32ToBytes final.c ++ word32ToBytes final.d ++
  word32ToBytes final.e ++ word32ToBytes final.f ++ word32ToBytes final.g ++ word32ToBytes final.h

/-! ## UTF-8 and base64 -/

/-- UTF-8 encoding of one code point. -/
def encodeCharUtf8 (n : Nat) : List Nat :=
  if n < 128 then [n]
  else if n < 2048 then [192 + n / 64, 128 + n % 64]
  else if n < 65536 then [224 + n / 4096, 128 + (n / 64) % 64, 128 + n % 64]
  else [240 + n / 262144, 128 + (n / 4096) % 64, 128 + (n / 64) % 64, 128 + n % 64]

/-- UTF-8 bytes of a string, matching str::as_bytes in Rust. -/
def utf8Bytes (s : String) : List Nat :=
  s.data.foldr (fun c acc => encodeCharUtf8 c.toNat ++ acc) []

/-- Character of the standard base64 alphabet at position n. -/
def b64Char (n : Nat) : Char :=
  if n < 26 then Char.ofNat (65 + n)
  else if n < 52 then Char.ofNat (97 + (n - 26))
  else if n < 62 then Char.ofNat (48 + (n - 52))
  else if n = 62 then Char.ofNat 43
  else Char.ofNat 47

/-- Standard base64 encoding with padding, three input bytes per four output
characters, as openssl base64::encode_block produces. -/
def b64EncodeChars : List Nat → List Char
  | [] => []
  | [a] => [b64Char (a / 4), b64Char ((a % 4) * 16), Char.ofNat 61, Char.ofNat 61]
  | [a, b] => [b64Char (a / 4), b64Char ((a % 4) * 16 + b / 16), b64Char ((b % 16) * 4), Char.ofNat 61]
  | a :: b :: c :: rest =>
      b64Char (a / 4) :: b64Char ((a % 4) * 16 + b / 16) ::
      b64Char ((b % 16) * 4 + c / 64) :: b64Char (c % 64) :: b64EncodeChars rest

/-- Base64 encoding of a byte list, as a string. -/
def base64Encode (bs : List Nat) : String := String.mk (b64EncodeChars bs)

/-- Value of one base64 alphabet character. -/
def b64Val (c : Char) : Option Nat :=
  if 65 ≤ c.toNat ∧ c.toNat ≤ 90 then some (c.toNat - 65)
  else if 97 ≤ c.toNat ∧ c.toNat ≤ 122 then some (c.toNat - 97 + 26)
  else if 48 ≤ c.toNat ∧ c.toNat ≤ 57 then some (c.toNat - 48 + 52)
  else if c.toNat = 43 then some 62
  else if c.toNat = 47 then some 63
  else none

/-- Base64 decoding in four-character groups, honouring final padding, as
openssl base64::decode_block accepts for well-formed input. -/
def b64DecodeChars : List Char → Option (List Nat)
  | p :: q :: r :: s :: rest =>
      (b64Val p).bind fun a =>
      (b64Val q).bind fun b =>
      if r.toNat = 61 ∧ s.toNat = 61 ∧ rest = [] then
        some [a * 4 + b / 16]
      else if s.toNat = 61 ∧ rest = [] then
        (b64Val r).bind fun c =>
        some [a * 4 + b / 16, (b % 16) * 16 + c / 4]
      else
        (b64Val r).bind fun c =>
        (b64Val s).bind fun d =>
        (b64DecodeChars rest).bind fun tail =>
        some ((a * 4 + b / 16) :: ((b % 16) * 16 + c / 4) :: ((c % 4) * 64 + d) :: tail)
  | [] => some []
  | _ => none

/-- Base64 decoding of a string to bytes. -/
def base64Decode (s : String) : Option (List Nat) := b64DecodeChars s.data

/-! ## u64 helpers -/

/-- Modulus of 64-bit arithmetic. -/
def u64Mod : Nat := 18446744073709551616

/-- Wrapping u64 subtraction (release-mode Rust semantics). -/
def wsub64 (a b : Nat) : Nat := (a + u64Mod - b % u64Mod) % u64Mod

/-- Big-endian integer of the last 8 bytes of a 32-byte digest, matching
u64::from_be_bytes(digest[24..]). -/
def beLast8 (digest : List Nat) : Nat :=
  (digest.drop 24).foldl (fun acc b => acc * 256 + b) 0

/-- Big-endian 8-byte encoding of a u64, matching u64::to_be_bytes. -/
def beBytes8 (n : Nat) : List Nat :=
  [(n >>> 56) % 256, (n >>> 48) % 256, (n >>> 40) % 256, (n >>> 32) % 256,
   (n >>> 24) % 256, (n >>> 16) % 256, (n >>> 8) % 256, n % 256]

/-- Digit-by-digit accumulation of a decimal string. -/
def parseDigits : List Char → Nat → Option Nat
  | [], acc => some acc
  | c :: cs, acc =>
      if 48 ≤ c.toNat ∧ c.toNat ≤ 57 then parseDigits cs (acc * 10 + (c.toNat - 48))
      else none

/-- Rust u64::from_str: optional leading plus sign, one or more ASCII digits,
value within the u64 range; anything else is an error (modelled as none). -/
def parse_u64 (s : String) : Option Nat :=
  let cs := if s.data.head? = some (Char.ofNat 43) then s.data.tail else s.data
  match cs with
  | [] => none
  | _ =>
      match parseDigits cs 0 with
      | some n => if n < u64Mod then some n else none
      | none => none

/-- Lexicographic comparison of byte slices: the Rust Ord instance for slices,
where a strict prefix is smaller. -/
def bytesLt : List Nat → List Nat → Bool
  | [], [] => false
  | [], _ :: _ => true
  | _ :: _, [] => false
  | a :: as_, b :: bs =>
      if a < b then true
      else if b < a then false
      else bytesLt as_ bs

/-! ## Data model: Record, Block, Chain (block.rs, chain.rs) -/

/-- Record, the smallest payload unit (block.rs). -/
structure Record where
  idx : Nat × Nat
  timestamp : Nat
  data : String
  author_peer_id : String
deriving DecidableEq

/-- Block, the atomic commit unit (block.rs). -/
structure Block where
  idx : Nat
  previous_block_hash : String
  validation_sidelinks : List String
  num_sidelinks : Nat
  pow : String
  timestamp : Nat
  records : List Record
  difficulty : List Nat
deriving DecidableEq

/-- Chain: configuration plus ordered block sequence (chain.rs). -/
structure Chain where
  blocks : List Block
  num_sidelinks : Nat
deriving DecidableEq

/-- Genesis block (Block::genesis in block.rs). -/
def Block.genesis : Block where
  idx := 1
  previous_block_hash := String.mk (List.replicate 32 (Char.ofNat 48))
  num_sidelinks := 0
  validation_sidelinks := []
  pow := ""
  timestamp := 0
  records := []
  difficulty := List.replicate 32 0

/-! ## Canonical JSON serialization -/

/-- Hex digit character (lowercase), for JSON control escapes. -/
def hexDigitChar (n : Nat) : String :=
  String.singleton (Char.ofNat (if n < 10 then 48 + n else 87 + n))

/-- JSON escaping of one character, as serde_json emits it. -/
def jsonEscapeChar (c : Char) : String :=
  if c.toNat = 34 then "\\\""
  else if c.toNat = 92 then "\\\\"
  else if c.toNat = 8 then "\\b"
  else if c.toNat = 9 then "\\t"
  else if c.toNat = 10 then "\\n"
  else if c.toNat = 12 then "\\f"
  else if c.toNat = 13 then "\\r"
  else if c.toNat < 32 then "\\u00" ++ hexDigitChar (c.toNat / 16) ++ hexDigitChar (c.toNat % 16)
  else String.singleton c

/-- JSON string literal for s. -/
def jsonString (s : String) : String :=
  "\"" ++ (s.data.foldr (fun c acc => jsonEscapeChar c ++ acc) "") ++ "\""

/-- Compact JSON serialization of a Record, fields in declaration order, as
serde_json::to_string emits for the derived Serialize of Record. -/
def recordToJson (r : Record) : String :=
  "\x7b\"idx\":[" ++ toString r.idx.1 ++ "," ++ toString r.idx.2 ++ "],\"timestamp\":" ++
  toString r.timestamp ++ ",\"data\":" ++ jsonString r.data ++ ",\"author_peer_id\":" ++
  jsonString r.author_peer_id ++ "\x7d"

/-- Compact JSON serialization of a Block, fields in declaration order, as
serde_json::to_string emits for the derived Serialize of Block: the on-disk
and wire line format. -/
def blockToJson (b : Block) : String :=
  "\x7b\"idx\":" ++ toString b.idx ++
  ",\"previous_block_hash\":" ++ jsonString b.previous_block_hash ++
  ",\"validation_sidelinks\":[" ++ String.intercalate "," (b.validation_sidelinks.map jsonString) ++
  "],\"num_sidelinks\":" ++ toString b.num_sidelinks ++
  ",\"pow\":" ++ jsonString b.pow ++
  ",\"timestamp\":" ++ toString b.timestamp ++
  ",\"records\":[" ++ String.intercalate "," (b.records.map recordToJson) ++
  "],\"difficulty\":[" ++ String.intercalate "," (b.difficulty.map toString) ++ "]\x7d"

/-- Modelled from the spec: the bytes hashed by Block::hash. The source feeds
serde_json::json!(self).to_string() to SHA-256; the key order of the Value
built by the json! macro is fixed by the serde_json feature selection in the
build manifest, which is not part of src/. Spec section 4.1 fixes the order
to idx, previous_block_hash, validation_sidelinks, num_sidelinks, pow,
timestamp, records, difficulty in compact form, which this definition spells
out. -/
def blockHashJson (b : Block) : String :=
  "\x7b\"idx\":" ++ toString b.idx ++
  ",\"previous_block_hash\":" ++ jsonString b.previous_block_hash ++
  ",\"validation_sidelinks\":[" ++ String.intercalate "," (b.validation_sidelinks.map jsonString) ++
  "],\"num_sidelinks\":" ++ toString b.num_sidelinks ++
  ",\"pow\":" ++ jsonString b.pow ++
  ",\"timestamp\":" ++ toString b.timestamp ++
  ",\"records\":[" ++ String.intercalate "," (b.records.map recordToJson) ++
  "],\"difficulty\":[" ++ String.intercalate "," (b.difficulty.map toString) ++ "]\x7d"

/-- Block::hash: base64 of SHA-256 over the canonical JSON encoding. -/
def Block.hash (b : Block) : String :=
  base64Encode (sha256 (utf8Bytes (blockHashJson b)))

/-! ## Block operations (block.rs) -/

/-- Block::add_record: the record gets position last.idx.1 + 1, or 1 when the
block has no records yet, paired with the block index. -/
def Block.add_record (b : Block) (record : Record) : Block :=
  let idx : Nat × Nat :=
    match b.records.getLast? with
    | some last_record => (b.idx, (last_record.idx.2 + 1) % u64Mod)
    | none => (b.idx, 1)
  { b with records := b.records ++ [{ record with idx := idx }] }

/-- Exchange of candidates[i] and candidates[j] through a temporary, as the
swap in Block::derive_sidelink_indices performs it. -/
def listSwap (l : List Nat) (i j : Nat) : List Nat :=
  let tmp := l.getD i 0
  (l.set i (l.getD j 0)).set j tmp

/-- One swap iteration of Block::derive_sidelink_indices: both positions come
from SHA-256 of the previous block hash concatenated with the decimal
iteration counter (the second position hashes the counter twice), taking the
big-endian integer of the last 8 digest bytes mod the candidate count. -/
def deriveSwapStep (hash : String) (last_possible_sl_idx : Nat) (cand : List Nat) (i : Nat) : List Nat :=
  let idx1 := beLast8 (sha256 (utf8Bytes (hash ++ Nat.repr i))) % last_possible_sl_idx
  let idx2 := beLast8 (sha256 (utf8Bytes (hash ++ Nat.repr i ++ Nat.repr i))) % last_possible_sl_idx
  listSwap cand idx1 idx2

/-- Block::derive_sidelink_indices: candidates 1..idx-2; if num_sidelinks is
less than idx-1, perform num_sidelinks * 2 deterministic swaps and keep the
last num_sidelinks elements, otherwise return the candidates unchanged. -/
def Block.derive_sidelink_indices (b : Block) : List Nat :=
  let last_possible_sl_idx := wsub64 b.idx 2
  let candidates := List.range' 1 last_possible_sl_idx
  if b.num_sidelinks < wsub64 b.idx 1 then
    let number_of_swaps := b.num_sidelinks * 2
    let final := (List.range number_of_swaps).foldl
      (deriveSwapStep b.previous_block_hash last_possible_sl_idx) candidates
    final.drop (final.length - b.num_sidelinks)
  else
    candidates

/-! ## Proof-of-work token (pow.rs) -/

/-- pow::get_token_from_block: SHA-256 of the previous block hash bytes
followed by the big-endian bytes of the parsed pow field; the unwrap on the
parse panics (none) when pow is not a u64 decimal string. -/
def get_token_from_block (block : Block) : Option (List Nat) :=
  (parse_u64 block.pow).map fun n =>
    sha256 (utf8Bytes block.previous_block_hash ++ beBytes8 n)

/-- Record refresh loop of pow::prove_the_work on a new-tip notification:
records already present in the new last block are discarded (full structural
equality), survivors get idx (new_block_idx, record_counter) with the counter
starting at 0 and incremented per surviving record. -/
def refresh_records (new_block_idx : Nat) (new_last_block_records : List Record) :
    List Record → Nat → List Record
  | [], _ => []
  | record :: rest, record_counter =>
      if new_last_block_records.contains record then
        refresh_records new_block_idx new_last_block_records rest record_counter
      else
        { record with idx := (new_block_idx, record_counter) } ::
          refresh_records new_block_idx new_last_block_records rest ((record_counter + 1) % u64Mod)

/-! ## File model (chain.rs file operations) -/

/-- Lines of a byte stream as BufRead::lines yields them: split at byte 10,
no terminator in the line, no final empty line for a trailing newline. -/
def rustLines (content : List Nat) : List (List Nat) :=
  match content with
  | [] => []
  | _ =>
      let parts := content.splitOn 10
      if content.getLast? = some 10 then parts.dropLast else parts

/-- Scan of Chain::remove_last_block_from_file over the lines: accumulates the
end offset (newline included) of each line and remembers the end offset of the
last non-empty line. -/
def lastNonEmptyLineEnd (lines : List (List Nat)) (pos : Nat) (acc : Option Nat) : Option Nat :=
  match lines with
  | [] => acc
  | line :: rest =>
      let pos1 := pos + line.length + 1
      lastNonEmptyLineEnd rest pos1 (if line.isEmpty then acc else some pos1)

/-- Chain::remove_last_block_from_file on the file contents: empty file is
untouched; otherwise the file is set_len to the recorded offset, which keeps
the bytes up to that offset and zero-fills if the offset lies past the end
(the set_len semantics of Rust). -/
def Chain.remove_last_block_from_file (content : List Nat) : List Nat :=
  if content.length = 0 then content
  else
    match lastNonEmptyLineEnd (rustLines content) 0 none with
    | some pos => content.take pos ++ List.replicate (pos - content.length) 0
    | none => content

/-- Chain::append_block_to_file: the serialized block plus a newline is
appended to the file contents. -/
def Chain.append_block_to_file (content : List Nat) (block : Block) : List Nat :=
  content ++ utf8Bytes (blockToJson block) ++ [10]

/-! ## Block store reads (chain.rs), file contents modelled as parsed blocks -/

/-- Selection loop of Chain::get_blocks_by_indices_from_file: walk the file
lines with their 0-based position i and keep the blocks whose 1-based index
i+1 occurs in the requested indices, in file order. -/
def fileFetchGo (indices : List Nat) : Nat → List Block → List Block
  | _, [] => []
  | i, b :: rest =>
      if indices.contains (i + 1) then b :: fileFetchGo indices (i + 1) rest
      else fileFetchGo indices (i + 1) rest

/-- Chain::get_blocks_by_indices_from_file for a well-formed store file whose
lines parse back to exactly the stored blocks. -/
def Chain.get_blocks_by_indices_from_file (indices : List Nat) (fileBlocks : List Block) :
    Option (List Block) :=
  some (fileFetchGo indices 0 fileBlocks)

/-- Chain::load_block_from_file for a well-formed store file: the block on
line block_idx - 1 (0-based), if present. -/
def Chain.load_block_from_file (block_idx : Nat) (fileBlocks : List Block) : Option Block :=
  fileBlocks.get? (wsub64 block_idx 1)

/-! ## Validation (chain.rs) -/

/-- Sidelink fetch of the chain-backed validation: resolve each derived index
against the in-memory blocks in derived order; a missing index aborts. -/
def chainFetchSidelinks (blocks : List Block) : List Nat → Option (List Block)
  | [] => some []
  | idx :: rest =>
      match blocks.get? (wsub64 idx 1) with
      | some b => (chainFetchSidelinks blocks rest).map (b :: ·)
      | none => none

/-- Sidelink comparison loop of Chain::validate_block_core. The loop variable
shadows the block under validation, so the hash of each fetched block is
compared with the validation_sidelinks entry of that same fetched block at
the loop position; indexing past the end of that list is a Rust panic
(none). -/
def sidelinkCheckLoop : Nat → List Block → Option Bool
  | _, [] => some true
  | i, q :: rest =>
      match q.validation_sidelinks.get? i with
      | none => none
      | some s => if q.hash ≠ s then some false else sidelinkCheckLoop (i + 1) rest

/-- Source selector of Chain::validate_block_core. -/
inductive BlockValidationSource where
  | File
  | Chain
deriving DecidableEq

/-- Straight-line validation stages of Chain::validate_block_core before the
proof-of-work check, for a non-genesis block, over the already selected
previous-block lookup and sidelink fetch (the source selects both by matching
on the validation source; that selection is in validatePrePow below): check
index continuity and the stored previous hash, re-derive the sidelink
indices, check their count, fetch the sidelinked blocks and run the
comparison loop. Returns some true when every stage passes, some false on a
failed check, none on a panic. -/
def validate_prepow_with (previous_block : Option Block)
    (fetchSide : List Nat → Option (List Block)) (block : Block) : Option Bool :=
  match previous_block with
  | none => some false
  | some previous_block =>
      if block.idx ≠ (previous_block.idx + 1) % u64Mod then some false
      else if block.previous_block_hash ≠ previous_block.hash then some false
      else if block.derive_sidelink_indices.length ≠ block.num_sidelinks then some false
      else
        match fetchSide block.derive_sidelink_indices with
        | none => some false
        | some qs => sidelinkCheckLoop 0 qs

/-- Pre-pow validation stages of Chain::validate_block_core: the previous
block and the sidelinked blocks come from the file or the in-memory chain as
the source selects. -/
def validatePrePow (block : Block) (fileBlocks : List Block) (chain : Chain)
    (source : BlockValidationSource) : Option Bool :=
  validate_prepow_with
    (match source with
     | BlockValidationSource.File => Chain.load_block_from_file (wsub64 block.idx 1) fileBlocks
     | BlockValidationSource.Chain => chain.blocks.get? (wsub64 block.idx 2))
    (fun validation_sidelinks =>
      match source with
      | BlockValidationSource.File =>
          Chain.get_blocks_by_indices_from_file validation_sidelinks fileBlocks
      | BlockValidationSource.Chain => chainFetchSidelinks chain.blocks validation_sidelinks)
    block

/-- Proof-of-work stage of Chain::validate_block_core: panic (none) when the
pow field does not parse, otherwise true exactly when the token is
lexicographically below the difficulty bytes. -/
def powStage (block : Block) : Option Bool :=
  (get_token_from_block block).map fun token => bytesLt token block.difficulty

/-- Chain::validate_block_core: a block of index 1 must equal the canonical
genesis; otherwise the pre-pow stages run, and when they pass the
proof-of-work stage decides. -/
def validate_block_core (block : Block) (fileBlocks : List Block) (chain : Chain)
    (source : BlockValidationSource) : Option Bool :=
  if block.idx = 1 then some (block = Block.genesis)
  else
    match validatePrePow block fileBlocks chain source with
    | some true => powStage block
    | r => r

/-- Chain::validate_block_using_file, on a well-formed store file. -/
def Chain.validate_block_using_file (block : Block) (fileBlocks : List Block) : Option Bool :=
  validate_block_core block fileBlocks ⟨[], 0⟩ BlockValidationSource.File

/-- Chain::validate_block against the in-memory chain. -/
def Chain.validate_block (chain : Chain) (block : Block) : Option Bool :=
  validate_block_core block [] chain BlockValidationSource.Chain

/-- Loop of Chain::validate_chain over the blocks after the genesis. -/
def validateChainLoop (chain : Chain) : List Block → Option Bool
  | [] => some true
  | b :: rest =>
      match chain.validate_block b with
      | some true => validateChainLoop chain rest
      | some false => some false
      | none => none

/-- Chain::validate_chain: non-empty, correct genesis, and every later block
validates against the chain. -/
def Chain.validate_chain (chain : Chain) : Option Bool :=
  match chain.blocks with
  | [] => some false
  | g :: rest =>
      if g ≠ Block.genesis then some false
      else validateChainLoop chain rest

/-! ## Fork choice (chain.rs find_longest_chain) -/

/-- Winner tag of the fork choice. -/
inductive ChainType where
  | Local
  | Remote
  | Both
  | NoChain
deriving DecidableEq

/-- Result of the fork choice: the winner tag and the cloned winning chain. -/
structure ChainChoice where
  chosen_chain_type : ChainType
  chosen_chain : Option Chain
deriving DecidableEq

/-- Winning chain selected for a winner tag, as the match at the end of
find_longest_chain clones it. -/
def chosenChainFor (local_chain remote_chain : Chain) : ChainType → Option Chain
  | ChainType.Local => some local_chain
  | ChainType.Remote => some remote_chain
  | ChainType.Both => none
  | ChainType.NoChain => none

/-- find_longest_chain: validate both chains (a panic in either validation
propagates); when both are valid the longer wins, with a tie broken by the
base64-decoded tip hashes (smaller bytes win, equality gives Both); when one
is valid it wins; when neither is, no chain is chosen. The last-block and
decode unwraps are panics (none). -/
def find_longest_chain (local_chain remote_chain : Chain) : Option ChainChoice :=
  (local_chain.validate_chain).bind fun local_chain_validation =>
  (remote_chain.validate_chain).bind fun remote_chain_validation =>
  (if local_chain_validation && remote_chain_validation then
    if local_chain.blocks.length > remote_chain.blocks.length then some ChainType.Local
    else if local_chain.blocks.length < remote_chain.blocks.length then some ChainType.Remote
    else
      (local_chain.blocks.getLast?).bind fun local_last =>
      (base64Decode local_last.hash).bind fun local_last_block_hash =>
      (remote_chain.blocks.getLast?).bind fun remote_last =>
      (base64Decode remote_last.hash).bind fun remote_last_block_hash =>
      if bytesLt local_last_block_hash remote_last_block_hash then some ChainType.Local
      else if local_last_block_hash = remote_last_block_hash then some ChainType.Both
      else some ChainType.Remote
  else if local_chain_validation then some ChainType.Local
  else if remote_chain_validation then some ChainType.Remote
  else some ChainType.NoChain).bind fun winner_chain_type =>
  some ⟨winner_chain_type, chosenChainFor local_chain remote_chain winner_chain_type⟩

/-! ## Spec-side definitions (refinement counterparts, written from the
specification text, to be compared with the source-derived definitions) -/

/-- Spec-side swap of the sidelink derivation, following the claim text: swap
position a comes from SHA-256 of P and the decimal counter, position b from
SHA-256 of P and the counter written twice, both as the big-endian integer of
the last 8 digest bytes mod h - 2. -/
def specSidelinkSwap (P : String) (h : Nat) (cand : List Nat) (i : Nat) : List Nat :=
  let a := beLast8 (sha256 (utf8Bytes (P ++ Nat.repr i))) % (h - 2)
  let b := beLast8 (sha256 (utf8Bytes (P ++ Nat.repr i ++ Nat.repr i))) % (h - 2)
  listSwap cand a b

/-- Spec-side sidelink derivation, following the claim text for a block of
height h with previous hash P and parameter k: candidates 1..h-2, then 2k
swaps and the last k elements when k < h-1, the untouched candidate list
otherwise. -/
def derive_sidelink_indices_spec (P : String) (h k : Nat) : List Nat :=
  let candidates := List.range' 1 (h - 2)
  if k < h - 1 then
    let after := (List.range (2 * k)).foldl (specSidelinkSwap P h) candidates
    after.drop (after.length - k)
  else
    candidates

/-- Spec-side fork choice, following the claim text, for validity verdicts lv
and rv of the local and remote chain: both valid compares lengths then the
base64-decoded tip hashes; one valid chooses it; none chooses no chain. -/
def forkChoiceSpec (lv rv : Bool) (L R : Chain) : ChainChoice :=
  if lv && rv then
    if L.blocks.length > R.blocks.length then ⟨ChainType.Local, some L⟩
    else if L.blocks.length < R.blocks.length then ⟨ChainType.Remote, some R⟩
    else
      let lb := (base64Decode ((L.blocks.getLastD Block.genesis).hash)).getD []
      let rb := (base64Decode ((R.blocks.getLastD Block.genesis).hash)).getD []
      if bytesLt lb rb then ⟨ChainType.Local, some L⟩
      else if lb = rb then ⟨ChainType.Both, none⟩
      else ⟨ChainType.Remote, some R⟩
  else if lv then ⟨ChainType.Local, some L⟩
  else if rv then ⟨ChainType.Remote, some R⟩
  else ⟨ChainType.NoChain, none⟩

/-- Big-endian integer value of a byte list. -/
def beNat (l : List Nat) : Nat :=
  l.foldl (fun acc b => acc * 256 + b) 0

/-- Default record value, used as the getD fallback in statements. -/
def defaultRecord : Record where
  idx := (0, 0)
  timestamp := 0
  data := ""
  author_peer_id := ""

/-! ## Concrete inputs used by counterexamples and witnesses -/

/-- Block with index 2 whose remaining fields are those of the genesis. -/
def exB2 : Block := { Block.genesis with idx := 2 }

/-- Failing input of the sidelink hash check: block of height 3 with one
sidelink, whose stored sidelink hash is exactly the hash of the sidelinked
block (the genesis), as the specification demands. -/
def c1Block : Block where
  idx := 3
  previous_block_hash := Block.hash exB2
  validation_sidelinks := [Block.hash Block.genesis]
  num_sidelinks := 1
  pow := "0"
  timestamp := 0
  records := []
  difficulty := List.replicate 32 0

/-- Context chain for the sidelink hash check failing input. -/
def c1Chain : Chain where
  blocks := [Block.genesis, exB2]
  num_sidelinks := 5

/-- Block of height 2 above the genesis whose pre-pow validation stages all
pass: correct predecessor hash, no sidelinks. -/
def c4Block : Block where
  idx := 2
  previous_block_hash := Block.hash Block.genesis
  validation_sidelinks := []
  num_sidelinks := 0
  pow := "0"
  timestamp := 1
  records := []
  difficulty := List.replicate 32 255

/-- Singleton genesis chain. -/
def genesisChain : Chain where
  blocks := [Block.genesis]
  num_sidelinks := 5

/-- Same as c4Block but with the pow field of the genesis (the empty string),
which does not parse as a u64. -/
def c10Block : Block := { c4Block with pow := "" }

/-- Second block of the path-divergence chain: it carries one sidelink entry
that is not its own hash. -/
def c9Q2 : Block := { Block.genesis with idx := 2, validation_sidelinks := ["x"] }

/-- Third block of the path-divergence chain; its pow value steers the
derived sidelink order of the next block to [2, 1]. -/
def c9Q3 : Block := { Block.genesis with idx := 3, pow := "1" }

/-- Block of height 4 with two sidelinks whose derived index list [2, 1] is
not ascending, separating the chain-backed and file-backed validation. -/
def c9Block : Block where
  idx := 4
  previous_block_hash := Block.hash c9Q3
  validation_sidelinks := [Block.hash c9Q2, Block.hash Block.genesis]
  num_sidelinks := 2
  pow := "0"
  timestamp := 0
  records := []
  difficulty := List.replicate 32 0

/-- Context chain of the path-divergence counterexample. -/
def c9Chain : Chain where
  blocks := [Block.genesis, c9Q2, c9Q3]
  num_sidelinks := 5

/-- Sample record for the record-position statements. -/
def c7Record : Record where
  idx := (2, 1)
  timestamp := 5
  data := "d"
  author_peer_id := "a"

/-! ## Helper lemmas -/

theorem wsub64_sub (a b : Nat) (hb : b ≤ a) (ha : a < u64Mod) : wsub64 a b = a - b := by
  unfold wsub64 u64Mod at *
  omega

theorem listSwap_length (l : List Nat) (i j : Nat) : (listSwap l i j).length = l.length := by
  simp [listSwap]

theorem listSwap_nil (i j : Nat) : listSwap [] i j = [] := rfl

theorem mem_listSwap (l : List Nat) (i j : Nat) (hi : i < l.length) (hj : j < l.length) :
    ∀ x ∈ listSwap l i j, x ∈ l := by
  intro x hx
  unfold listSwap at hx
  rcases List.mem_or_eq_of_mem_set hx with hx1 | rfl
  · rcases List.mem_or_eq_of_mem_set hx1 with hx2 | rfl
    · exact hx2
    · rw [List.getD_eq_getElem l 0 hj]
      exact List.getElem_mem hj
  · rw [List.getD_eq_getElem l 0 hi]
    exact List.getElem_mem hi

theorem foldl_swap_invariant (P : String) (L : Nat) (is : List Nat) :
    ∀ (cand : List Nat), cand.length = L → (∀ x ∈ cand, 1 ≤ x ∧ x ≤ L) →
    ((is.foldl (deriveSwapStep P L) cand).length = L ∧
     ∀ x ∈ is.foldl (deriveSwapStep P L) cand, 1 ≤ x ∧ x ≤ L) := by
  induction is with
  | nil => intro cand h1 h2; exact ⟨h1, h2⟩
  | cons i is ih =>
      intro cand h1 h2
      simp only [List.foldl_cons]
      rcases Nat.eq_zero_or_pos L with hL | hL
      · have hcand : cand = [] := List.eq_nil_of_length_eq_zero (hL ▸ h1)
        subst hcand
        exact ih [] (by simpa [deriveSwapStep, listSwap_nil] using h1)
          (by simp [deriveSwapStep, listSwap_nil])
      · have hi : beLast8 (sha256 (utf8Bytes (P ++ Nat.repr i))) % L < cand.length := by
          rw [h1]; exact Nat.mod_lt _ hL
        have hj : beLast8 (sha256 (utf8Bytes (P ++ Nat.repr i ++ Nat.repr i))) % L < cand.length := by
          rw [h1]; exact Nat.mod_lt _ hL
        refine ih _ ?_ ?_
        · simpa [deriveSwapStep, listSwap_length] using h1
        · intro x hx
          exact h2 x (mem_listSwap _ _ _ hi hj x hx)

theorem derive_bounds (b : Block) (h2 : 2 ≤ b.idx) (hM : b.idx < u64Mod) :
    (∀ x ∈ b.derive_sidelink_indices, 1 ≤ x ∧ x ≤ b.idx - 2) ∧
    b.derive_sidelink_indices.length = min b.num_sidelinks (b.idx - 2) ∧
    (b.idx - 1 ≤ b.num_sidelinks → b.derive_sidelink_indices = List.range' 1 (b.idx - 2)) := by
  unfold Block.derive_sidelink_indices
  rw [wsub64_sub b.idx 2 (by omega) hM, wsub64_sub b.idx 1 (by omega) hM]
  by_cases hk : b.num_sidelinks < b.idx - 1
  · simp only [if_pos hk]
    have hrange : ∀ x ∈ List.range' 1 (b.idx - 2), 1 ≤ x ∧ x ≤ b.idx - 2 := by
      intro x hx
      rw [List.mem_range'] at hx
      omega
    obtain ⟨hlen, hmem⟩ := foldl_swap_invariant b.previous_block_hash (b.idx - 2)
      (List.range (b.num_sidelinks * 2)) (List.range' 1 (b.idx - 2)) (by simp) hrange
    refine ⟨?_, ?_, ?_⟩
    · intro x hx
      exact hmem x (List.drop_subset _ _ hx)
    · rw [List.length_drop, hlen]
      omega
    · intro hge
      omega
  · simp only [if_neg hk]
    refine ⟨?_, ?_, fun _ => by simp⟩
    · intro x hx
      rw [List.mem_range'] at hx
      omega
    · rw [List.length_range']
      omega

/-! ## Claim C5 -/

/-- Claim C5: for every block of height at least 3, derive_sidelink_indices
computes exactly the documented procedure: candidates 1..h-2; when
num_sidelinks < h-1, 2k swaps at positions taken from SHA-256 of the previous
hash and the decimal iteration counter (the second position hashing the
counter twice) mod h-2, then the last k elements in post-swap order; when
num_sidelinks is at least h-1, the untouched candidate list. -/
theorem c5_derive_matches_spec (b : Block) (h3 : 3 ≤ b.idx) (hM : b.idx < u64Mod) :
    b.derive_sidelink_indices =
      derive_sidelink_indices_spec b.previous_block_hash b.idx b.num_sidelinks := by
  unfold Block.derive_sidelink_indices derive_sidelink_indices_spec
  rw [wsub64_sub b.idx 2 (by omega) hM, wsub64_sub b.idx 1 (by omega) hM,
    Nat.mul_comm 2 b.num_sidelinks]
  rfl

/-- Witness for C5 at a concrete block of height 3. -/
theorem c5_derive_matches_spec_witness :
    c1Block.derive_sidelink_indices =
      derive_sidelink_indices_spec c1Block.previous_block_hash c1Block.idx c1Block.num_sidelinks :=
  c5_derive_matches_spec c1Block (by decide) (by decide)

/-! ## Claim C6 -/

/-- Claim C6 counterexample: at height 3 with parameter 2, the derived list is
[1] of length 1, not of length min 2 (3-1) = 2 as the claim demands. -/
theorem c6_counterexample :
    ¬ ((Block.derive_sidelink_indices { Block.genesis with idx := 3, num_sidelinks := 2 }).length
        = min 2 (3 - 1)) := by decide

/-- Claim C6 as amended: for height at least 2, every derived index lies in
[1, h-2], the length is min k (h-2) rather than min k (h-1), and when
k is at least h-1 the list is exactly 1..h-2. -/
theorem c6_domain_and_length (b : Block) (h2 : 2 ≤ b.idx) (hM : b.idx < u64Mod) :
    (∀ x ∈ b.derive_sidelink_indices, 1 ≤ x ∧ x ≤ b.idx - 2) ∧
    b.derive_sidelink_indices.length = min b.num_sidelinks (b.idx - 2) ∧
    (b.idx - 1 ≤ b.num_sidelinks → b.derive_sidelink_indices = List.range' 1 (b.idx - 2)) :=
  derive_bounds b h2 hM

/-- Witness for C6 at a concrete block of height 4 requesting more sidelinks
than available. -/
theorem c6_domain_and_length_witness :
    (∀ x ∈ Block.derive_sidelink_indices { Block.genesis with idx := 4, num_sidelinks := 7 },
        1 ≤ x ∧ x ≤ 4 - 2) ∧
    (Block.derive_sidelink_indices { Block.genesis with idx := 4, num_sidelinks := 7 }).length
      = min 7 (4 - 2) ∧
    (4 - 1 ≤ 7 → Block.derive_sidelink_indices { Block.genesis with idx := 4, num_sidelinks := 7 }
      = List.range' 1 (4 - 2)) :=
  c6_domain_and_length { Block.genesis with idx := 4, num_sidelinks := 7 } (by decide) (by decide)

/-! ## Claim C3 -/

/-- Claim C3 is refuted by the code: on the two-line store file holding the
bytes of a newline-terminated pair of blocks, remove_last_block_from_file
leaves the file unchanged instead of removing the final non-empty line; the
empty-store no-op half does hold. -/
theorem c3_remove_last_keeps_line :
    Chain.remove_last_block_from_file [97, 10, 98, 10] = [97, 10, 98, 10] ∧
    Chain.remove_last_block_from_file [97, 10, 98, 10] ≠ [97, 10] ∧
    Chain.remove_last_block_from_file [] = [] := by decide

/-! ## Claim C2 -/

/-- Claim C2: the hash of a block is the base64 SHA-256 of its compact JSON
serialization with the fields in declaration order, and the bytes hashed are
exactly the line that append_block_to_file writes, minus its trailing
newline. -/
theorem c2_hash_input_is_wire_line (b : Block) :
    Block.hash b = base64Encode (sha256 (utf8Bytes (blockToJson b))) ∧
    (∀ content, Chain.append_block_to_file content b
      = content ++ utf8Bytes (blockToJson b) ++ [10]) :=
  ⟨rfl, fun _ => rfl⟩

/-! ## Record position lemmas -/

theorem add_record_invariant (b : Block) (r : Record)
    (hinv : ∀ p, p < b.records.length → (b.records.getD p defaultRecord).idx = (b.idx, p + 1))
    (hlen : b.records.length + 1 < u64Mod) :
    ∀ p, p < (b.add_record r).records.length →
      ((b.add_record r).records.getD p defaultRecord).idx = (b.idx, p + 1) := by
  intro p hp
  unfold Block.add_record at hp ⊢
  rcases List.eq_nil_or_concat b.records with hnil | ⟨l, last, hcat⟩
  · rw [hnil] at hp ⊢
    simp only [List.getLast?_nil, List.nil_append, List.length_cons, List.length_nil] at hp ⊢
    interval_cases p
    simp [List.getD]
  · have hlast : b.records.getLast? = some last := by rw [hcat]; simp
    have hlastidx : last.idx = (b.idx, b.records.length) := by
      have h1 : b.records.getD (b.records.length - 1) defaultRecord = last := by
        rw [hcat]
        simp [List.getD_eq_getElem, List.length_append]
      have h2 := hinv (b.records.length - 1)
        (by rw [hcat]; simp only [List.concat_eq_append, List.length_append, List.length_cons,
          List.length_nil]; omega)
      rw [h1] at h2
      rw [h2]
      have : 0 < b.records.length := by rw [hcat]; simp [List.length_append]
      congr 1
      omega
    rw [hlast] at hp ⊢
    simp only at hp ⊢
    rw [List.length_append, List.length_cons, List.length_nil] at hp
    rcases Nat.lt_or_ge p b.records.length with hplt | hpge
    · rw [List.getD_append _ _ _ _ hplt]
      exact hinv p hplt
    · have hpeq : p = b.records.length := by omega
      subst hpeq
      have : (b.records ++
          [{ r with idx := (b.idx, (last.idx.2 + 1) % u64Mod) }]).getD b.records.length defaultRecord
          = { r with idx := (b.idx, (last.idx.2 + 1) % u64Mod) } := by
        rw [List.getD_eq_getElem]
        · simp
        · simp
      rw [this]
      rw [hlastidx]
      simp only []
      congr 1
      unfold u64Mod at hlen ⊢
      omega

theorem addRecords_positions (rs : List Record) : ∀ (b : Block),
    (∀ p, p < b.records.length → (b.records.getD p defaultRecord).idx = (b.idx, p + 1)) →
    b.records.length + rs.length < u64Mod →
    ∀ p, p < (rs.foldl Block.add_record b).records.length →
      ((rs.foldl Block.add_record b).records.getD p defaultRecord).idx = (b.idx, p + 1) := by
  induction rs with
  | nil => intro b hinv _ p hp; exact hinv p hp
  | cons r rs ih =>
      intro b hinv hlen p hp
      simp only [List.foldl_cons] at hp ⊢
      have hidx : (b.add_record r).idx = b.idx := rfl
      have hreclen : (b.add_record r).records.length = b.records.length + 1 := by
        unfold Block.add_record
        cases b.records.getLast? <;> simp
      have hlen1 : b.records.length + 1 < u64Mod := by
        simp only [List.length_cons] at hlen
        omega
      have hinv1 := add_record_invariant b r hinv hlen1
      rw [← hidx] at hinv1
      have := ih (b.add_record r) hinv1
        (by rw [hreclen]; simp only [List.length_cons] at hlen; omega) p hp
      rw [hidx] at this
      exact this

theorem refresh_positions (n : Nat) (tip : List Record) (pending : List Record) :
    ∀ (c : Nat), c + pending.length < u64Mod →
    ∀ p, p < (refresh_records n tip pending c).length →
      ((refresh_records n tip pending c).getD p defaultRecord).idx = (n, c + p) := by
  induction pending with
  | nil => intro c _ p hp; simp [refresh_records] at hp
  | cons r rest ih =>
      intro c hc p hp
      by_cases hmem : tip.contains r
      · rw [refresh_records, if_pos hmem] at hp ⊢
        exact ih c (by simp only [List.length_cons] at hc; omega) p hp
      · rw [refresh_records, if_neg hmem] at hp ⊢
        have hmod : (c + 1) % u64Mod = c + 1 := by
          simp only [List.length_cons] at hc
          unfold u64Mod at hc ⊢
          omega
        cases p with
        | zero => simp [List.getD]
        | succ q =>
            simp only [List.length_cons, Nat.succ_lt_succ_iff] at hp
            have := ih ((c + 1) % u64Mod)
              (by rw [hmod]; simp only [List.length_cons] at hc; omega) q hp
            rw [List.getD_cons_succ, this, hmod]
            congr 1
            omega

/-! ## Claim C7 -/

/-- Claim C7 counterexample: the miner renumbering of a single surviving
pending record assigns position 0, not position 1 as the claim states for the
record at list position 0. -/
theorem c7_counterexample :
    ¬ (((refresh_records 3 [] [c7Record] 0).getD 0 defaultRecord).idx = (3, 0 + 1)) := by decide

/-- Claim C7 as amended: records appended through add_record onto a block that
starts with no records carry 1-based consecutive positions (the record at
0-based position p has idx (B.idx, p+1)); the miner renumbering after a
new-tip notification instead assigns 0-based positions (the surviving record
at 0-based position p gets idx (new_idx, p)). -/
theorem c7_positions :
    (∀ (b : Block) (rs : List Record), b.records = [] → rs.length < u64Mod →
      ∀ p, p < (rs.foldl Block.add_record b).records.length →
        ((rs.foldl Block.add_record b).records.getD p defaultRecord).idx = (b.idx, p + 1)) ∧
    (∀ (new_idx : Nat) (tip pending : List Record), pending.length < u64Mod →
      ∀ p, p < (refresh_records new_idx tip pending 0).length →
        ((refresh_records new_idx tip pending 0).getD p defaultRecord).idx = (new_idx, p)) := by
  constructor
  · intro b rs hb hlen
    exact addRecords_positions rs b (by rw [hb]; intro p hp; simp at hp)
      (by rw [hb]; simpa using hlen)
  · intro n tip pending hlen p hp
    have := refresh_positions n tip pending 0 (by simpa using hlen) p hp
    simpa using this

/-- Witness for C7 at one record through each path. -/
theorem c7_positions_witness :
    ((([c7Record].foldl Block.add_record { Block.genesis with idx := 2 }).records.getD 0
        defaultRecord).idx = (2, 0 + 1)) ∧
    (((refresh_records 3 [] [c7Record] 0).getD 0 defaultRecord).idx = (3, 0)) :=
  ⟨c7_positions.1 { Block.genesis with idx := 2 } [c7Record] rfl (by decide) 0 (by decide),
   c7_positions.2 3 [] [c7Record] (by decide) 0 (by decide)⟩

/-! ## Claim C1 -/

set_option maxRecDepth 10000000 in
/-- Claim C1 is refuted by the code: c1Block carries exactly the hash of the
sidelinked block (the genesis, at derived index 1) in its
validation_sidelinks, so per the claim the sidelink comparison should pass and
validation proceed; the compare loop of validate_block_core instead indexes
the own validation_sidelinks of the sidelinked block (the loop variable shadows the
block under validation) and panics on the genesis, whose list is empty. -/
theorem c1_sidelink_check_panics :
    Chain.validate_block c1Chain c1Block = none ∧
    c1Block.validation_sidelinks = [Block.hash Block.genesis] ∧
    c1Block.derive_sidelink_indices = [1] :=
  ⟨by decide, rfl, by decide⟩

/-! ## Byte-value comparison lemmas -/

theorem word32ToBytes_lt (w : Nat) : ∀ x ∈ word32ToBytes w, x < 256 := by
  intro x hx
  simp only [word32ToBytes, List.mem_cons, List.not_mem_nil, or_false] at hx
  rcases hx with rfl | rfl | rfl | rfl <;> exact Nat.mod_lt _ (by omega)

theorem sha256_bytes_lt (m : List Nat) : ∀ x ∈ sha256 m, x < 256 := by
  intro x hx
  unfold sha256 at hx
  simp only [List.mem_append] at hx
  rcases hx with ((((((h | h) | h) | h) | h) | h) | h) | h <;> exact word32ToBytes_lt _ x h

theorem sha256_length (m : List Nat) : (sha256 m).length = 32 := by
  unfold sha256
  simp [word32ToBytes]

theorem beNat_foldl_acc (l : List Nat) : ∀ (a : Nat),
    l.foldl (fun acc b => acc * 256 + b) a = a * 256 ^ l.length + beNat l := by
  induction l with
  | nil => intro a; simp [beNat]
  | cons y l ih =>
      intro a
      have hy : beNat (y :: l) = y * 256 ^ l.length + beNat l := by
        have hcons : beNat (y :: l) = List.foldl (fun acc b => acc * 256 + b) (0 * 256 + y) l := rfl
        rw [hcons, ih (0 * 256 + y)]
        ring
      simp only [List.foldl_cons, List.length_cons]
      rw [ih (a * 256 + y), hy]
      ring

theorem beNat_lt_pow (l : List Nat) (h : ∀ x ∈ l, x < 256) : beNat l < 256 ^ l.length := by
  induction l with
  | nil => simp [beNat]
  | cons y l ih =>
      have hy : y < 256 := h y (by simp)
      have hl : beNat l < 256 ^ l.length := ih (fun x hx => h x (by simp [hx]))
      have hcons : beNat (y :: l) = y * 256 ^ l.length + beNat l := by
        have hc : beNat (y :: l) = List.foldl (fun acc b => acc * 256 + b) (0 * 256 + y) l := rfl
        rw [hc, beNat_foldl_acc]
        ring
      rw [hcons, List.length_cons]
      calc y * 256 ^ l.length + beNat l < y * 256 ^ l.length + 256 ^ l.length := by omega
        _ = (y + 1) * 256 ^ l.length := by ring
        _ ≤ 256 * 256 ^ l.length := Nat.mul_le_mul_right _ (by omega)
        _ = 256 ^ (l.length + 1) := by ring

theorem beNat_cons (y : Nat) (l : List Nat) : beNat (y :: l) = y * 256 ^ l.length + beNat l := by
  have hc : beNat (y :: l) = List.foldl (fun acc b => acc * 256 + b) (0 * 256 + y) l := rfl
  rw [hc, beNat_foldl_acc]
  ring

theorem bytesLt_iff_beNat : ∀ (a b : List Nat), a.length = b.length →
    (∀ x ∈ a, x < 256) → (∀ x ∈ b, x < 256) →
    (bytesLt a b = true ↔ beNat a < beNat b) := by
  intro a
  induction a with
  | nil =>
      intro b hlen _ _
      have hb : b = [] := List.eq_nil_of_length_eq_zero hlen.symm
      subst hb
      simp [bytesLt, beNat]
  | cons x as ih =>
      intro b hlen ha hb
      cases b with
      | nil => simp at hlen
      | cons y bs =>
          simp only [List.length_cons, Nat.succ.injEq] at hlen
          have hx : x < 256 := ha x (by simp)
          have hy : y < 256 := hb y (by simp)
          have has : ∀ z ∈ as, z < 256 := fun z hz => ha z (by simp [hz])
          have hbs : ∀ z ∈ bs, z < 256 := fun z hz => hb z (by simp [hz])
          have hbound_a : beNat as < 256 ^ as.length := beNat_lt_pow as has
          have hbound_b : beNat bs < 256 ^ as.length := by
            rw [hlen]; exact beNat_lt_pow bs hbs
          rw [beNat_cons, beNat_cons, ← hlen]
          unfold bytesLt
          by_cases hxy : x < y
          · simp only [if_pos hxy, true_iff]
            calc x * 256 ^ as.length + beNat as
                < x * 256 ^ as.length + 256 ^ as.length := by omega
              _ = (x + 1) * 256 ^ as.length := by ring
              _ ≤ y * 256 ^ as.length := Nat.mul_le_mul_right _ (by omega)
              _ ≤ y * 256 ^ as.length + beNat bs := Nat.le_add_right _ _
          · by_cases hyx : y < x
            · simp only [if_neg hxy, if_pos hyx]
              constructor
              · intro h; cases h
              · intro hcontra
                exfalso
                have : y * 256 ^ as.length + beNat bs < x * 256 ^ as.length + beNat as := by
                  calc y * 256 ^ as.length + beNat bs
                      < y * 256 ^ as.length + 256 ^ as.length := by omega
                    _ = (y + 1) * 256 ^ as.length := by ring
                    _ ≤ x * 256 ^ as.length := Nat.mul_le_mul_right _ (by omega)
                    _ ≤ x * 256 ^ as.length + beNat as := Nat.le_add_right _ _
                omega
            · have hxyeq : x = y := by omega
              subst hxyeq
              simp only [if_neg hxy, if_neg hyx]
              rw [ih bs hlen has hbs]
              omega

/-! ## Claim C4 -/

/-- Claim C4: for a non-genesis block whose pre-pow validation stages pass and
whose pow field parses as the u64 value n, validate_block succeeds exactly
when SHA-256 of the previous hash bytes concatenated with the 8 big-endian
bytes of n compares lexicographically strictly below the difficulty bytes; a
token not below the difficulty forces the result false; and on 32 proper
difficulty bytes the lexicographic comparison agrees with the comparison of
the 32-byte big-endian integer values. -/
theorem c4_pow_check (chain : Chain) (block : Block) (n : Nat)
    (hidx : block.idx ≠ 1)
    (hpre : validatePrePow block [] chain BlockValidationSource.Chain = some true)
    (hparse : parse_u64 block.pow = some n) :
    (chain.validate_block block = some true ↔
      bytesLt (sha256 (utf8Bytes block.previous_block_hash ++ beBytes8 n)) block.difficulty
        = true) ∧
    (bytesLt (sha256 (utf8Bytes block.previous_block_hash ++ beBytes8 n)) block.difficulty
        = false → chain.validate_block block = some false) ∧
    (block.difficulty.length = 32 → (∀ x ∈ block.difficulty, x < 256) →
      (bytesLt (sha256 (utf8Bytes block.previous_block_hash ++ beBytes8 n)) block.difficulty = true
        ↔ beNat (sha256 (utf8Bytes block.previous_block_hash ++ beBytes8 n))
            < beNat block.difficulty)) := by
  have hval : chain.validate_block block
      = some (bytesLt (sha256 (utf8Bytes block.previous_block_hash ++ beBytes8 n))
          block.difficulty) := by
    unfold Chain.validate_block validate_block_core
    rw [if_neg hidx, hpre]
    unfold powStage get_token_from_block
    rw [hparse]
    rfl
  refine ⟨?_, ?_, ?_⟩
  · rw [hval]
    constructor
    · intro h
      exact Option.some_inj.mp h
    · intro h
      rw [h]
  · intro h
    rw [hval, h]
  · intro hlen hdiff
    exact bytesLt_iff_beNat _ _ (by rw [sha256_length, hlen]) (sha256_bytes_lt _) hdiff

set_option maxRecDepth 10000000 in
/-- Witness for C4 at a concrete height-2 block above the genesis. -/
theorem c4_pow_check_witness :
    ((genesisChain.validate_block c4Block = some true ↔
      bytesLt (sha256 (utf8Bytes c4Block.previous_block_hash ++ beBytes8 0)) c4Block.difficulty
        = true) ∧
    (bytesLt (sha256 (utf8Bytes c4Block.previous_block_hash ++ beBytes8 0)) c4Block.difficulty
        = false → genesisChain.validate_block c4Block = some false) ∧
    (c4Block.difficulty.length = 32 → (∀ x ∈ c4Block.difficulty, x < 256) →
      (bytesLt (sha256 (utf8Bytes c4Block.previous_block_hash ++ beBytes8 0)) c4Block.difficulty
          = true
        ↔ beNat (sha256 (utf8Bytes c4Block.previous_block_hash ++ beBytes8 0))
            < beNat c4Block.difficulty))) :=
  c4_pow_check genesisChain c4Block 0 (by decide) (by decide) (by decide)

/-! ## Claim C10 -/

/-- Claim C10: once the pre-pow validation stages of a non-genesis block pass,
validate_block returns a boolean exactly when the pow field parses as a u64;
an unparseable pow (such as the empty genesis pow value) is a panic inside
get_token_from_block, modelled as none. -/
theorem c10_pow_parse_totality (chain : Chain) (block : Block)
    (hidx : block.idx ≠ 1)
    (hpre : validatePrePow block [] chain BlockValidationSource.Chain = some true) :
    ((chain.validate_block block).isSome ↔ (parse_u64 block.pow).isSome) ∧
    (parse_u64 block.pow = none → chain.validate_block block = none) := by
  have hval : chain.validate_block block = powStage block := by
    unfold Chain.validate_block validate_block_core
    rw [if_neg hidx, hpre]
  constructor
  · rw [hval]
    unfold powStage get_token_from_block
    cases parse_u64 block.pow <;> simp
  · intro hnone
    rw [hval]
    unfold powStage get_token_from_block
    rw [hnone]
    rfl

set_option maxRecDepth 10000000 in
/-- Witness for C10 at a concrete height-2 block whose pow is the empty
string. -/
theorem c10_pow_parse_totality_witness :
    parse_u64 c10Block.pow = none ∧
    (((genesisChain.validate_block c10Block).isSome ↔ (parse_u64 c10Block.pow).isSome) ∧
     (parse_u64 c10Block.pow = none → genesisChain.validate_block c10Block = none)) :=
  ⟨by decide, c10_pow_parse_totality genesisChain c10Block (by decide) (by decide)⟩

/-! ## Base64 round trip -/

theorem b64Val_b64Char : ∀ n < 64, b64Val (b64Char n) = some n := by decide

theorem b64Char_toNat_ne_61 : ∀ n < 64, (b64Char n).toNat ≠ 61 := by decide

theorem b64_roundtrip (bs : List Nat) (h : ∀ x ∈ bs, x < 256) :
    b64DecodeChars (b64EncodeChars bs) = some bs := by
  induction bs using b64EncodeChars.induct with
  | case1 => rfl
  | case2 a =>
      have ha : a < 256 := h a (by simp)
      have h1 : b64Val (b64Char (a / 4)) = some (a / 4) := b64Val_b64Char _ (by omega)
      have h2 : b64Val (b64Char (a % 4 * 16)) = some (a % 4 * 16) := b64Val_b64Char _ (by omega)
      simp only [b64EncodeChars, b64DecodeChars, h1, h2, Option.some_bind]
      rw [if_pos ⟨by decide, by decide, by trivial⟩]
      have hval : a / 4 * 4 + a % 4 * 16 / 16 = a := by omega
      rw [hval]
  | case3 a b =>
      have ha : a < 256 := h a (by simp)
      have hb : b < 256 := h b (by simp)
      have h1 : b64Val (b64Char (a / 4)) = some (a / 4) := b64Val_b64Char _ (by omega)
      have h2 : b64Val (b64Char (a % 4 * 16 + b / 16)) = some (a % 4 * 16 + b / 16) :=
        b64Val_b64Char _ (by omega)
      have h3 : b64Val (b64Char (b % 16 * 4)) = some (b % 16 * 4) := b64Val_b64Char _ (by omega)
      have hne : (b64Char (b % 16 * 4)).toNat ≠ 61 := b64Char_toNat_ne_61 _ (by omega)
      simp only [b64EncodeChars, b64DecodeChars, h1, h2, h3, Option.some_bind]
      rw [if_neg (by intro hcon; exact hne hcon.1)]
      rw [if_pos ⟨by decide, by trivial⟩]
      have hv1 : a / 4 * 4 + (a % 4 * 16 + b / 16) / 16 = a := by omega
      have hv2 : (a % 4 * 16 + b / 16) % 16 * 16 + b % 16 * 4 / 4 = b := by omega
      rw [hv1, hv2]
  | case4 a b c rest ih =>
      have ha : a < 256 := h a (by simp)
      have hb : b < 256 := h b (by simp)
      have hc : c < 256 := h c (by simp)
      have hrest : ∀ x ∈ rest, x < 256 := fun x hx => h x (by simp [hx])
      have h1 : b64Val (b64Char (a / 4)) = some (a / 4) := b64Val_b64Char _ (by omega)
      have h2 : b64Val (b64Char (a % 4 * 16 + b / 16)) = some (a % 4 * 16 + b / 16) :=
        b64Val_b64Char _ (by omega)
      have h3 : b64Val (b64Char (b % 16 * 4 + c / 64)) = some (b % 16 * 4 + c / 64) :=
        b64Val_b64Char _ (by omega)
      have h4 : b64Val (b64Char (c % 64)) = some (c % 64) := b64Val_b64Char _ (by omega)
      have hne3 : (b64Char (b % 16 * 4 + c / 64)).toNat ≠ 61 := b64Char_toNat_ne_61 _ (by omega)
      have hne4 : (b64Char (c % 64)).toNat ≠ 61 := b64Char_toNat_ne_61 _ (by omega)
      simp only [b64EncodeChars, b64DecodeChars, h1, h2, h3, h4, Option.some_bind]
      rw [if_neg (by intro hcon; exact hne3 hcon.1)]
      rw [if_neg (by intro hcon; exact hne4 hcon.1)]
      rw [ih hrest]
      simp only [Option.some_bind]
      have hv1 : a / 4 * 4 + (a % 4 * 16 + b / 16) / 16 = a := by omega
      have hv2 : (a % 4 * 16 + b / 16) % 16 * 16 + (b % 16 * 4 + c / 64) / 4 = b := by omega
      have hv3 : (b % 16 * 4 + c / 64) % 4 * 64 + c % 64 = c := by omega
      rw [hv1, hv2, hv3]

theorem base64Decode_hash (b : Block) :
    base64Decode (Block.hash b) = some (sha256 (utf8Bytes (blockHashJson b))) := by
  unfold Block.hash base64Encode base64Decode
  exact b64_roundtrip _ (sha256_bytes_lt _)

/-! ## Fork choice lemmas -/

theorem validate_chain_ne_nil (c : Chain) (h : c.validate_chain = some true) : c.blocks ≠ [] := by
  intro hnil
  unfold Chain.validate_chain at h
  rw [hnil] at h
  simp at h

theorem getLast?_of_ne_nil (l : List Block) (h : l ≠ []) :
    l.getLast? = some (l.getLastD Block.genesis) := by
  cases hl : l.getLast? with
  | none => exact absurd (List.getLast?_eq_none_iff.mp hl) h
  | some y => rw [List.getLastD_eq_getLast?, hl]; rfl


/-! ## Claim C8 -/

/-- Claim C8: find_longest_chain implements the documented fork choice. With
both validations returning verdicts (no panic), the outcome is: both valid
compares block counts, longer wins; equal counts compare the base64-decoded
tip hashes as raw bytes, smaller wins and byte equality gives Both with no
chain chosen; exactly one valid chooses that chain; none valid chooses no
chain. -/
theorem c8_fork_choice (L R : Chain) (lv rv : Bool)
    (hL : L.validate_chain = some lv) (hR : R.validate_chain = some rv) :
    find_longest_chain L R = some (forkChoiceSpec lv rv L R) := by
  unfold find_longest_chain forkChoiceSpec
  rw [hL, hR]
  simp only [Option.some_bind]
  cases lv with
  | false =>
      cases rv with
      | false => rfl
      | true => rfl
  | true =>
      cases rv with
      | false => rfl
      | true =>
          simp only [Bool.and_self, if_true]
          rcases Nat.lt_trichotomy L.blocks.length R.blocks.length with hlt | heq | hgt
          · have h1 : ¬ (L.blocks.length > R.blocks.length) := by omega
            simp only [if_neg h1, if_pos hlt]
            rfl
          · have h1 : ¬ (L.blocks.length > R.blocks.length) := by omega
            have h2 : ¬ (L.blocks.length < R.blocks.length) := by omega
            simp only [if_neg h1, if_neg h2]
            have hLne := validate_chain_ne_nil L hL
            have hRne := validate_chain_ne_nil R hR
            rw [getLast?_of_ne_nil _ hLne, getLast?_of_ne_nil _ hRne]
            simp only [Option.some_bind]
            rw [base64Decode_hash, base64Decode_hash]
            simp only [Option.some_bind, Option.getD_some]
            by_cases hblt : bytesLt (sha256 (utf8Bytes (blockHashJson (L.blocks.getLastD Block.genesis))))
                (sha256 (utf8Bytes (blockHashJson (R.blocks.getLastD Block.genesis)))) = true
            · simp only [if_pos hblt]
              rfl
            · simp only [if_neg hblt]
              by_cases hbeq : sha256 (utf8Bytes (blockHashJson (L.blocks.getLastD Block.genesis)))
                  = sha256 (utf8Bytes (blockHashJson (R.blocks.getLastD Block.genesis)))
              · simp only [if_pos hbeq]
                rfl
              · simp only [if_neg hbeq]
                rfl
          · simp only [if_pos hgt]
            rfl

/-- Witness for C8 at two copies of the singleton genesis chain. -/
theorem c8_fork_choice_witness :
    find_longest_chain genesisChain genesisChain
      = some (forkChoiceSpec true true genesisChain genesisChain) :=
  c8_fork_choice genesisChain genesisChain true true (by decide) (by decide)

/-! ## Fetch lemmas for the two validation paths -/

theorem fileFetchGo_nil_indices : ∀ (s : Nat) (bs : List Block), fileFetchGo [] s bs = [] := by
  intro s bs
  induction bs generalizing s with
  | nil => rfl
  | cons b rest ih => simp [fileFetchGo, ih]

theorem fileFetchGo_head_le : ∀ (bs : List Block) (s j : Nat) (js : List Nat), j ≤ s →
    fileFetchGo (j :: js) s bs = fileFetchGo js s bs := by
  intro bs
  induction bs with
  | nil => intro s j js h; rfl
  | cons b rest ih =>
      intro s j js h
      have hbeq : (s + 1 == j) = false := by
        simp only [Nat.beq_eq_true_eq, Bool.eq_false_iff, ne_eq]
        omega
      simp only [fileFetchGo, List.contains_cons, hbeq, Bool.false_or]
      rw [ih (s + 1) j js (by omega)]

theorem fileFetchGo_sorted : ∀ (bs : List Block) (s : Nat) (indices : List Nat),
    List.Sorted (· < ·) indices →
    (∀ j ∈ indices, s + 1 ≤ j ∧ j ≤ s + bs.length) →
    fileFetchGo indices s bs = indices.map (fun j => bs.getD (j - 1 - s) Block.genesis) := by
  intro bs
  induction bs with
  | nil =>
      intro s indices hsort hb
      cases indices with
      | nil => rfl
      | cons j js =>
          exfalso
          have := hb j (by simp)
          simp only [List.length_nil, Nat.add_zero] at this
          omega
  | cons b rest ih =>
      intro s indices hsort hb
      cases indices with
      | nil => exact fileFetchGo_nil_indices s (b :: rest)
      | cons j js =>
          have hj := hb j (by simp)
          have hjs : ∀ x ∈ js, j < x := fun x hx => (List.sorted_cons.mp hsort).1 x hx
          have hsort2 : List.Sorted (· < ·) js := (List.sorted_cons.mp hsort).2
          simp only [List.length_cons] at hj
          rcases Nat.eq_or_lt_of_le hj.1 with hjeq | hjlt
          · have hcont : ((j :: js).contains (s + 1)) = true := by
              simp only [List.contains_cons, Bool.or_eq_true, Nat.beq_eq_true_eq]
              left
              omega
            simp only [fileFetchGo, hcont, if_true]
            rw [fileFetchGo_head_le rest (s + 1) j js (by omega)]
            rw [ih (s + 1) js hsort2 (fun x hx => by
              have h1 := hb x (by simp [hx])
              have h2 := hjs x hx
              simp only [List.length_cons] at h1
              omega)]
            simp only [List.map_cons]
            have h0 : j - 1 - s = 0 := by omega
            rw [h0]
            simp only [List.getD_cons_zero]
            congr 1
            apply List.map_congr_left
            intro x hx
            have h2 := hjs x hx
            have hstep : x - 1 - s = (x - 1 - (s + 1)) + 1 := by omega
            rw [hstep, List.getD_cons_succ]
          · have hnotmem : (s + 1) ∉ (j :: js) := by
              intro hmem
              rcases List.mem_cons.mp hmem with heq | hmem2
              · omega
              · have := hjs _ hmem2
                have h1 := hb (s + 1) hmem
                omega
            have hcont : ((j :: js).contains (s + 1)) = false := by
              rw [Bool.eq_false_iff]
              intro hc
              exact hnotmem (List.elem_iff.mp hc)
            simp only [fileFetchGo, hcont, Bool.false_eq_true, if_false]
            rw [ih (s + 1) (j :: js) hsort (fun x hx => by
              have h1 := hb x hx
              simp only [List.length_cons] at h1
              have h2 : s + 2 ≤ x := by
                rcases List.mem_cons.mp hx with rfl | hxm
                · omega
                · have := hjs x hxm
                  omega
              omega)]
            apply List.map_congr_left
            intro x hx
            have h2 : s + 2 ≤ x := by
              rcases List.mem_cons.mp hx with rfl | hxm
              · omega
              · have := hjs x hxm
                omega
            have hstep : x - 1 - s = (x - 1 - (s + 1)) + 1 := by omega
            rw [hstep, List.getD_cons_succ]

theorem chainFetch_all_present : ∀ (indices : List Nat) (bs : List Block),
    (∀ j ∈ indices, 1 ≤ j ∧ j ≤ bs.length ∧ j < u64Mod) →
    chainFetchSidelinks bs indices
      = some (indices.map (fun j => bs.getD (j - 1) Block.genesis)) := by
  intro indices
  induction indices with
  | nil => intro bs _; rfl
  | cons j js ih =>
      intro bs hb
      have hj := hb j (by simp)
      have hw : wsub64 j 1 = j - 1 := wsub64_sub j 1 (by omega) (by omega)
      have hlt : j - 1 < bs.length := by omega
      have hsome : bs.get? (j - 1) = some (bs.getD (j - 1) Block.genesis) := by
        rw [List.getD_eq_getElem bs Block.genesis hlt]
        simp [List.get?_eq_getElem?, List.getElem?_eq_getElem hlt]
      simp only [chainFetchSidelinks, hw, hsome]
      rw [ih bs (fun x hx => hb x (by simp [hx]))]
      rfl

/-! ## Claim C9 -/

set_option maxRecDepth 10000000 in
/-- Claim C9 is refuted by the code: on the three-block chain c9Chain, whose
file holds exactly its serialized blocks, the block c9Block derives the
non-ascending sidelink index list [2, 1]; the chain-backed validation pairs
the fetched blocks in derived order and returns false at the first hash
comparison, while the file-backed validation fetches them in ascending file
order, pairs the genesis with loop position 0 and panics indexing its empty
validation_sidelinks. The two context forms therefore disagree. -/
theorem c9_counterexample :
    Chain.validate_block c9Chain c9Block = some false ∧
    Chain.validate_block_using_file c9Block c9Chain.blocks = none ∧
    c9Block.derive_sidelink_indices = [2, 1] := by
  refine ⟨by decide, by decide, by decide⟩

/-- Claim C9 as amended: the chain-backed and the file-backed validation of a
block agree whenever the derived sidelink index list of the block is strictly
ascending (in particular whenever it is empty); the counterexample shows they
need not agree otherwise. -/
theorem c9_paths_agree_when_sorted (fileBlocks : List Block) (numsl : Nat) (block : Block)
    (h1 : 1 ≤ block.idx) (hM : block.idx < u64Mod)
    (hsorted : List.Sorted (· < ·) block.derive_sidelink_indices) :
    Chain.validate_block ⟨fileBlocks, numsl⟩ block
      = Chain.validate_block_using_file block fileBlocks := by
  unfold Chain.validate_block Chain.validate_block_using_file validate_block_core
  by_cases hidx : block.idx = 1
  · rw [if_pos hidx, if_pos hidx]
  · rw [if_neg hidx, if_neg hidx]
    suffices h : validatePrePow block [] ⟨fileBlocks, numsl⟩ BlockValidationSource.Chain
        = validatePrePow block fileBlocks ⟨[], 0⟩ BlockValidationSource.File by
      rw [h]
    have hidx2 : 2 ≤ block.idx := by omega
    have hprev : wsub64 (wsub64 block.idx 1) 1 = wsub64 block.idx 2 := by
      rw [wsub64_sub block.idx 1 (by omega) hM, wsub64_sub block.idx 2 (by omega) hM,
        wsub64_sub (block.idx - 1) 1 (by omega) (by unfold u64Mod at hM ⊢; omega)]
      omega
    show validate_prepow_with (fileBlocks.get? (wsub64 block.idx 2))
        (fun v => chainFetchSidelinks fileBlocks v) block
      = validate_prepow_with (fileBlocks.get? (wsub64 (wsub64 block.idx 1) 1))
        (fun v => Chain.get_blocks_by_indices_from_file v fileBlocks) block
    rw [hprev]
    unfold validate_prepow_with
    cases hp : fileBlocks.get? (wsub64 block.idx 2) with
    | none => rfl
    | some prev =>
        have hlt : wsub64 block.idx 2 < fileBlocks.length := by
          by_contra hge
          rw [List.get?_eq_none.mpr (Nat.le_of_not_lt hge)] at hp
          cases hp
        rw [wsub64_sub block.idx 2 (by omega) hM] at hlt
        have hbounds := derive_bounds block hidx2 hM
        have hbound1 : ∀ j ∈ block.derive_sidelink_indices,
            1 ≤ j ∧ j ≤ fileBlocks.length ∧ j < u64Mod := by
          intro j hj
          have := hbounds.1 j hj
          unfold u64Mod at hM ⊢
          omega
        have hbound0 : ∀ j ∈ block.derive_sidelink_indices,
            0 + 1 ≤ j ∧ j ≤ 0 + fileBlocks.length := by
          intro j hj
          have := hbound1 j hj
          omega
        have hfetch : chainFetchSidelinks fileBlocks block.derive_sidelink_indices
            = Chain.get_blocks_by_indices_from_file block.derive_sidelink_indices fileBlocks := by
          rw [chainFetch_all_present _ _ hbound1]
          unfold Chain.get_blocks_by_indices_from_file
          rw [fileFetchGo_sorted fileBlocks 0 _ hsorted hbound0]
          simp
        have hfetch2 : (fun v => chainFetchSidelinks fileBlocks v) block.derive_sidelink_indices
            = (fun v => Chain.get_blocks_by_indices_from_file v fileBlocks)
                block.derive_sidelink_indices := hfetch
        rw [hfetch2]

/-- Witness for the amended C9 at a height-2 block above the genesis, whose
derived index list is empty and hence ascending. -/
theorem c9_paths_agree_when_sorted_witness :
    Chain.validate_block ⟨[Block.genesis], 5⟩ c4Block
      = Chain.validate_block_using_file c4Block [Block.genesis] :=
  c9_paths_agree_when_sorted [Block.genesis] 5 c4Block (by decide) (by decide) (by decide)
